import Mathlib

/-!
Verification of the Tic-Tac-Toe board model, win detection, turn handling
and minimax move search of `game.py` (class `TicTacToeGame`).

The Python code is shallowly embedded: a `Board` is the 9-cell list
`self.board` (`None` = empty cell), `check_winner`, `available_moves`,
`handle_move` and `reset_board` are direct functional translations, and
`_minimax` — which in the source mutates the shared board in place and
undoes each hypothetical placement — is translated into state-passing
style: the board is threaded through the fold over the legal moves and
returned as the third component of the result, so that the
mutate-and-restore discipline becomes a provable statement about the
returned board.  Python's `math.inf` / `-math.inf` initial loop values are
embedded as the `XScore.posInf` / `XScore.negInf` points of an extended
integer score type.  The recursion is given an explicit fuel parameter
(`9` at top level); each recursive call fills one empty cell of the
9-cell board, so fuel `9` is never exhausted before a terminal state.
-/

/-- A mark placed on the board: `X` is `HUMAN_MARK`, `O` is `AI_MARK`. -/
inductive Mark where
  | X : Mark
  | O : Mark
deriving DecidableEq, Repr, Fintype

/-- One cell of the board: `none` is an empty cell (Python `None`). -/
abbrev Cell := Option Mark

/-- The board `self.board`: a list of 9 cells, indexed 0–8. -/
abbrev Board := List Cell

/-- The non-`None` results of `check_winner`: a winning mark or `"Draw"`. -/
inductive WinResult where
  | mark : Mark → WinResult
  | Draw : WinResult
deriving DecidableEq, Repr

/-- The freshly reset board `[None] * 9`. -/
def emptyBoard : Board := List.replicate 9 none

/-- `available_moves`: the indices of the empty cells of `board`, in
ascending index order — Python's
`[idx for idx, value in enumerate(board) if value is None]`, with the
enumeration counter made explicit. -/
def availFrom : Nat → Board → List Nat
  | _, [] => []
  | idx, value :: rest =>
    if value.isNone then idx :: availFrom (idx + 1) rest
    else availFrom (idx + 1) rest

/-- `TicTacToeGame.available_moves`. -/
def available_moves (board : Board) : List Nat :=
  availFrom 0 board

/-- The 8 `winning_lines` of `check_winner`: 3 rows, 3 columns, 2 diagonals,
in source order. -/
def winning_lines : List (Nat × Nat × Nat) :=
  [(0, 1, 2), (3, 4, 5), (6, 7, 8),
   (0, 3, 6), (1, 4, 7), (2, 5, 8),
   (0, 4, 8), (2, 4, 6)]

/-- The loop of `check_winner`:
`for a, b, c in winning_lines: if board[a] and board[a] == board[b] == board[c]: return board[a]`.
Returns the mark of the first winning line, if any. -/
def find_line_winner : List (Nat × Nat × Nat) → Board → Option Mark
  | [], _ => none
  | (a, b, c) :: rest, board =>
    match board.getD a none with
    | some m =>
      if board.getD b none = some m ∧ board.getD c none = some m then some m
      else find_line_winner rest board
    | none => find_line_winner rest board

/-- `TicTacToeGame.check_winner`: the winning mark of the first complete
line; `Draw` when no line is complete and no cell is empty; `none`
(undecided) otherwise. -/
def check_winner (board : Board) : Option WinResult :=
  match find_line_winner winning_lines board with
  | some m => some (WinResult.mark m)
  | none => if board.all (fun value => value.isSome) then some WinResult.Draw else none

/-- The extended scores of `_minimax`: terminal scores are integers, and
`negInf` / `posInf` embed the `-math.inf` / `math.inf` initial values of
the move loop. -/
inductive XScore where
  | negInf : XScore
  | fin : Int → XScore
  | posInf : XScore
deriving DecidableEq, Repr

/-- The strict order used by the `score > best_score` / `score < best_score`
comparisons of `_minimax`, extended to the infinities. -/
def XScore.lt : XScore → XScore → Bool
  | negInf, negInf => false
  | negInf, _ => true
  | fin _, negInf => false
  | fin a, fin b => decide (a < b)
  | fin _, posInf => true
  | posInf, _ => false

/-- The guard `depth_limit is not None and depth >= depth_limit`. -/
def atDepthLimit (depth_limit : Option Nat) (depth : Nat) : Bool :=
  match depth_limit with
  | some limit => decide (limit ≤ depth)
  | none => false

/-- One iteration of the move loop of `_minimax`: `f` is the recursive
call at the next depth with the roles flipped.  The accumulator carries
`(best_score, best_move, board)`; the body places `mark` on the board,
recurses, undoes the placement (`board[move] = None`), and keeps the new
score exactly when the strict comparison of the source fires. -/
def minimaxStep (f : Board → XScore × Option Nat × Board) (is_maximizing : Bool)
    (mark : Mark) (acc : XScore × Option Nat × Board) (move : Nat) :
    XScore × Option Nat × Board :=
  let placed := acc.2.2.set move (some mark)
  let r := f placed
  let restored := r.2.2.set move none
  if is_maximizing then
    if XScore.lt acc.1 r.1 then (r.1, some move, restored)
    else (acc.1, acc.2.1, restored)
  else
    if XScore.lt r.1 acc.1 then (r.1, some move, restored)
    else (acc.1, acc.2.1, restored)

/-- `TicTacToeGame._minimax`.  The result is `(score, move, board)`: the
returned score and best move of the Python function together with the
final state of the (in Python, mutated in place and restored) board.
The move list is computed from the board as the loop is entered, exactly
as Python's `for move in self.available_moves(board)` does.  `fuel`
bounds the recursion depth; every recursive call fills one empty cell,
so fuel `9` (the board size, see `minimaxTop`) is never exhausted before
`check_winner` reports a terminal state. -/
def minimax (fuel : Nat) (board : Board) (is_maximizing : Bool)
    (depth_limit : Option Nat) (depth : Nat) : XScore × Option Nat × Board :=
  if check_winner board = some (WinResult.mark Mark.O) then
    (XScore.fin (10 - (depth : Int)), none, board)
  else if check_winner board = some (WinResult.mark Mark.X) then
    (XScore.fin ((depth : Int) - 10), none, board)
  else if check_winner board = some WinResult.Draw then
    (XScore.fin 0, none, board)
  else if atDepthLimit depth_limit depth then
    (XScore.fin 0, none, board)
  else
    match fuel with
    | 0 => (XScore.fin 0, none, board)
    | fuel' + 1 =>
      (available_moves board).foldl
        (minimaxStep
          (fun placed => minimax fuel' placed (!is_maximizing) depth_limit (depth + 1))
          is_maximizing (if is_maximizing then Mark.O else Mark.X))
        ((if is_maximizing then XScore.negInf else XScore.posInf), none, board)

/-- A top-level `self._minimax(board, is_maximizing=…, depth_limit=…)` call
(depth `0`), keeping the `(score, move)` pair the callers use. -/
def minimaxTop (board : Board) (is_maximizing : Bool)
    (depth_limit : Option Nat) : XScore × Option Nat :=
  let r := minimax 9 board is_maximizing depth_limit 0
  (r.1, r.2.1)

/-- The move `_choose_ai_move` plays on Hard difficulty: the move of a
full-depth maximizing `_minimax` search. -/
def oReply (board : Board) : Option Nat :=
  (minimaxTop board true none).2


/-! ### Basic lemmas about `available_moves` -/

theorem mem_availFrom (l : List Cell) :
    ∀ (n m : Nat), m ∈ availFrom n l ↔ n ≤ m ∧ l[m - n]? = some none := by
  induction l with
  | nil => intro n m; simp [availFrom]
  | cons c t ih =>
    intro n m
    cases c with
    | none =>
      show m ∈ n :: availFrom (n + 1) t ↔ _
      rw [List.mem_cons, ih (n + 1) m]
      constructor
      · rintro (rfl | ⟨h1, h2⟩)
        · simp
        · refine ⟨by omega, ?_⟩
          have hmn : m - n = (m - (n + 1)) + 1 := by omega
          rw [hmn, List.getElem?_cons_succ]
          exact h2
      · rintro ⟨h1, h2⟩
        rcases Nat.eq_or_lt_of_le h1 with rfl | hlt
        · exact Or.inl rfl
        · refine Or.inr ⟨by omega, ?_⟩
          have hmn : m - n = (m - (n + 1)) + 1 := by omega
          rw [hmn, List.getElem?_cons_succ] at h2
          exact h2
    | some mk =>
      show m ∈ availFrom (n + 1) t ↔ _
      rw [ih (n + 1) m]
      constructor
      · rintro ⟨h1, h2⟩
        refine ⟨by omega, ?_⟩
        have hmn : m - n = (m - (n + 1)) + 1 := by omega
        rw [hmn, List.getElem?_cons_succ]
        exact h2
      · rintro ⟨h1, h2⟩
        rcases Nat.eq_or_lt_of_le h1 with rfl | hlt
        · simp at h2
        · refine ⟨by omega, ?_⟩
          have hmn : m - n = (m - (n + 1)) + 1 := by omega
          rw [hmn, List.getElem?_cons_succ] at h2
          exact h2

theorem mem_available_moves (b : Board) (m : Nat) :
    m ∈ available_moves b ↔ b[m]? = some none := by
  have h := mem_availFrom b 0 m
  simpa [available_moves] using h

theorem availFrom_pairwise (l : List Cell) :
    ∀ n, (availFrom n l).Pairwise (fun a b => a < b) := by
  induction l with
  | nil => intro n; simp [availFrom]
  | cons c t ih =>
    intro n
    cases c with
    | none =>
      show (n :: availFrom (n + 1) t).Pairwise _
      refine List.Pairwise.cons ?_ (ih (n + 1))
      intro b hb
      have := (mem_availFrom t (n + 1) b).mp hb
      omega
    | some mk =>
      show (availFrom (n + 1) t).Pairwise _
      exact ih (n + 1)

theorem availFrom_length (l : List Cell) :
    ∀ n, (availFrom n l).length = l.countP (fun c => c.isNone) := by
  induction l with
  | nil => intro n; simp [availFrom]
  | cons c t ih =>
    intro n
    cases c with
    | none =>
      show (n :: availFrom (n + 1) t).length = _
      simp [List.countP_cons, ih (n + 1)]
    | some mk =>
      show (availFrom (n + 1) t).length = _
      simp [List.countP_cons, ih (n + 1)]

/-! ### Basic lemmas about `List.set` on boards -/

theorem set_none_of_getElem? (l : List Cell) :
    ∀ i, l[i]? = some none → l.set i none = l := by
  induction l with
  | nil => intro i h; simp at h
  | cons c t ih =>
    intro i h
    cases i with
    | zero =>
      rw [List.getElem?_cons_zero] at h
      obtain rfl : c = none := by simpa using h
      rfl
    | succ j =>
      rw [List.getElem?_cons_succ] at h
      show c :: t.set j none = c :: t
      rw [ih j h]

theorem avail_nonempty_of_undecided (b : Board) :
    check_winner b = none → available_moves b ≠ [] := by
  intro hcw hav
  have hall : b.all (fun value => value.isSome) = true := by
    rw [List.all_eq_true]
    intro c hc
    cases c with
    | some m => rfl
    | none =>
      obtain ⟨k, hk⟩ := List.mem_iff_getElem?.mp hc
      have : k ∈ available_moves b := (mem_available_moves b k).mpr hk
      simp [hav] at this
  unfold check_winner at hcw
  cases hf : find_line_winner winning_lines b with
  | some m => rw [hf] at hcw; simp at hcw
  | none => rw [hf, hall] at hcw; simp at hcw

/-! ### Order facts about `XScore.lt` -/

theorem XScore.lt_irrefl (a : XScore) : XScore.lt a a = false := by
  cases a <;> simp [XScore.lt]

theorem XScore.not_lt_trans {a b c : XScore} :
    XScore.lt b a = false → XScore.lt c b = false → XScore.lt c a = false := by
  cases a <;> cases b <;> cases c <;> simp [XScore.lt] <;> omega

theorem XScore.lt_trans {a b c : XScore} :
    XScore.lt a b = true → XScore.lt b c = true → XScore.lt a c = true := by
  cases a <;> cases b <;> cases c <;> simp [XScore.lt] <;> omega

theorem XScore.lt_of_lt_of_not_lt {a b c : XScore} :
    XScore.lt a b = true → XScore.lt a c = false → XScore.lt c b = true := by
  cases a <;> cases b <;> cases c <;> simp [XScore.lt] <;> omega

theorem XScore.not_lt_of_lt_of_not_lt {a b c : XScore} :
    XScore.lt a b = true → XScore.lt c b = false → XScore.lt c a = false := by
  cases a <;> cases b <;> cases c <;> simp [XScore.lt] <;> omega

/-! ### The move loop restores the board -/

theorem minimaxStep_board (f : Board → XScore × Option Nat × Board)
    (is_maximizing : Bool) (mark : Mark) (acc : XScore × Option Nat × Board)
    (move : Nat) :
    (minimaxStep f is_maximizing mark acc move).2.2 =
      (f (acc.2.2.set move (some mark))).2.2.set move none := by
  simp only [minimaxStep]
  split <;> split <;> rfl

theorem foldl_minimaxStep_board (f : Board → XScore × Option Nat × Board)
    (is_maximizing : Bool) (mark : Mark)
    (hf : ∀ b', (f b').2.2 = b') :
    ∀ (moves : List Nat) (v : XScore) (mo : Option Nat) (b : Board),
      (∀ m ∈ moves, b[m]? = some none) →
      (moves.foldl (minimaxStep f is_maximizing mark) (v, mo, b)).2.2 = b := by
  intro moves
  induction moves with
  | nil => intro v mo b h; rfl
  | cons m rest ih =>
    intro v mo b h
    have hm : b[m]? = some none := h m (List.mem_cons_self m rest)
    rw [List.foldl_cons]
    rcases hsm : minimaxStep f is_maximizing mark (v, mo, b) m with ⟨v2, mo2, b2⟩
    have hb2 : b2 = b := by
      have hx := minimaxStep_board f is_maximizing mark (v, mo, b) m
      rw [hsm, hf, List.set_set] at hx
      simpa [set_none_of_getElem? b m hm] using hx
    rw [hb2]
    exact ih v2 mo2 b (fun mm hmm => h mm (List.mem_cons_of_mem m hmm))

/-- The board returned by `_minimax` is the board it was given: every
hypothetical placement is undone before the function returns. -/
theorem minimax_board (fuel : Nat) :
    ∀ (b : Board) (is_maximizing : Bool) (depth_limit : Option Nat) (depth : Nat),
      (minimax fuel b is_maximizing depth_limit depth).2.2 = b := by
  induction fuel with
  | zero =>
    intro b is_maximizing depth_limit depth
    unfold minimax
    split
    · rfl
    split
    · rfl
    split
    · rfl
    split
    · rfl
    · rfl
  | succ fuel2 ih =>
    intro b is_maximizing depth_limit depth
    unfold minimax
    split
    · rfl
    split
    · rfl
    split
    · rfl
    split
    · rfl
    · exact foldl_minimaxStep_board _ _ _
        (fun b2 => ih b2 (!is_maximizing) depth_limit (depth + 1))
        (available_moves b) _ none b
        (fun m hm => (mem_available_moves b m).mp hm)

/-! ### The move loop as a pure fold over child scores -/

/-- `beats is_maximizing s b` holds when a child score `s` displaces the
current best `b`: `score > best_score` when maximizing, `score < best_score`
when minimizing. -/
def beats (is_maximizing : Bool) (challenger incumbent : XScore) : Bool :=
  if is_maximizing then XScore.lt incumbent challenger
  else XScore.lt challenger incumbent

/-- The pure `(best_score, best_move)` update of one loop iteration,
with the already-computed child score. -/
def stepChoice (is_maximizing : Bool) (best : XScore × Option Nat)
    (p : Nat × XScore) : XScore × Option Nat :=
  if beats is_maximizing p.2 best.1 then (p.2, some p.1) else best

theorem minimaxStep_eq_stepChoice (f : Board → XScore × Option Nat × Board)
    (is_maximizing : Bool) (mark : Mark) (v : XScore) (mo : Option Nat)
    (b : Board) (m : Nat) :
    minimaxStep f is_maximizing mark (v, mo, b) m =
      ((stepChoice is_maximizing (v, mo) (m, (f (b.set m (some mark))).1)).1,
       (stepChoice is_maximizing (v, mo) (m, (f (b.set m (some mark))).1)).2,
       (f (b.set m (some mark))).2.2.set m none) := by
  cases is_maximizing <;>
    · simp only [minimaxStep, stepChoice, beats, Bool.false_eq_true, ite_false,
        ite_true]
      split <;> rfl

theorem foldl_minimaxStep_spec (f : Board → XScore × Option Nat × Board)
    (is_maximizing : Bool) (mark : Mark)
    (hf : ∀ b', (f b').2.2 = b') :
    ∀ (moves : List Nat) (v : XScore) (mo : Option Nat) (b : Board),
      (∀ m ∈ moves, b[m]? = some none) →
      moves.foldl (minimaxStep f is_maximizing mark) (v, mo, b) =
        (((moves.map (fun m => (m, (f (b.set m (some mark))).1))).foldl
            (stepChoice is_maximizing) (v, mo)).1,
         ((moves.map (fun m => (m, (f (b.set m (some mark))).1))).foldl
            (stepChoice is_maximizing) (v, mo)).2,
         b) := by
  intro moves
  induction moves with
  | nil => intro v mo b h; rfl
  | cons m rest ih =>
    intro v mo b h
    have hm : b[m]? = some none := h m (List.mem_cons_self m rest)
    have hrestore : (f (b.set m (some mark))).2.2.set m none = b := by
      rw [hf, List.set_set]
      exact set_none_of_getElem? b m hm
    rw [List.foldl_cons, List.map_cons, List.foldl_cons,
      minimaxStep_eq_stepChoice, hrestore]
    exact ih _ _ b (fun mm hmm => h mm (List.mem_cons_of_mem m hmm))

/-! ### Order facts about `beats` -/

theorem beats_irrefl (is_maximizing : Bool) (a : XScore) :
    beats is_maximizing a a = false := by
  cases is_maximizing <;> simp [beats, XScore.lt_irrefl]

theorem beats_neg_trans {is_maximizing : Bool} {a b c : XScore} :
    beats is_maximizing a b = false → beats is_maximizing b c = false →
    beats is_maximizing a c = false := by
  cases is_maximizing <;> cases a <;> cases b <;> cases c <;>
    simp [beats, XScore.lt] <;> omega

theorem beats_pos_neg {is_maximizing : Bool} {a b c : XScore} :
    beats is_maximizing a b = true → beats is_maximizing a c = false →
    beats is_maximizing b c = false := by
  cases is_maximizing <;> cases a <;> cases b <;> cases c <;>
    simp [beats, XScore.lt] <;> omega

theorem beats_pos_of_pos_neg {is_maximizing : Bool} {a b c : XScore} :
    beats is_maximizing a b = true → beats is_maximizing c b = false →
    beats is_maximizing a c = true := by
  cases is_maximizing <;> cases a <;> cases b <;> cases c <;>
    simp [beats, XScore.lt] <;> omega

theorem beats_trans {is_maximizing : Bool} {a b c : XScore} :
    beats is_maximizing a b = true → beats is_maximizing b c = true →
    beats is_maximizing a c = true := by
  cases is_maximizing <;> cases a <;> cases b <;> cases c <;>
    simp [beats, XScore.lt] <;> omega

/-! ### The pure fold selects the first extremal entry -/

theorem foldl_stepChoice_spec (is_maximizing : Bool) :
    ∀ (pairs : List (Nat × XScore)) (v0 : XScore) (m0 : Option Nat),
      (∀ p ∈ pairs,
        beats is_maximizing p.2 (pairs.foldl (stepChoice is_maximizing) (v0, m0)).1 = false) ∧
      beats is_maximizing v0 (pairs.foldl (stepChoice is_maximizing) (v0, m0)).1 = false ∧
      ((pairs.foldl (stepChoice is_maximizing) (v0, m0) = (v0, m0) ∧
          ∀ p ∈ pairs, beats is_maximizing p.2 v0 = false) ∨
       (∃ (i : Nat) (p : Nat × XScore), pairs[i]? = some p ∧
          pairs.foldl (stepChoice is_maximizing) (v0, m0) = (p.2, some p.1) ∧
          beats is_maximizing p.2 v0 = true ∧
          ∀ (j : Nat) (q : Nat × XScore), j < i → pairs[j]? = some q →
            beats is_maximizing p.2 q.2 = true)) := by
  intro pairs
  induction pairs with
  | nil =>
    intro v0 m0
    refine ⟨by simp, ?_, Or.inl ⟨rfl, by simp⟩⟩
    simpa using beats_irrefl is_maximizing v0
  | cons p rest ih =>
    intro v0 m0
    rw [List.foldl_cons]
    cases hb : beats is_maximizing p.2 v0 with
    | false =>
      have hstep : stepChoice is_maximizing (v0, m0) p = (v0, m0) := by
        simp [stepChoice, hb]
      rw [hstep]
      obtain ⟨ih1, ih2, ih3⟩ := ih v0 m0
      refine ⟨?_, ih2, ?_⟩
      · intro q hq
        rcases List.mem_cons.mp hq with rfl | hq'
        · exact beats_neg_trans hb ih2
        · exact ih1 q hq'
      · rcases ih3 with ⟨heq, hall⟩ | ⟨i, q, hget, heq, hbeat, hfirst⟩
        · refine Or.inl ⟨heq, ?_⟩
          intro q hq
          rcases List.mem_cons.mp hq with rfl | hq'
          · exact hb
          · exact hall q hq'
        · refine Or.inr ⟨i + 1, q, ?_, heq, hbeat, ?_⟩
          · rw [List.getElem?_cons_succ]
            exact hget
          · intro j q' hj hget'
            cases j with
            | zero =>
              rw [List.getElem?_cons_zero] at hget'
              obtain rfl : p = q' := by simpa using hget'
              exact beats_pos_of_pos_neg hbeat hb
            | succ k =>
              rw [List.getElem?_cons_succ] at hget'
              exact hfirst k q' (by omega) hget'
    | true =>
      have hstep : stepChoice is_maximizing (v0, m0) p = (p.2, some p.1) := by
        simp [stepChoice, hb]
      rw [hstep]
      obtain ⟨ih1, ih2, ih3⟩ := ih p.2 (some p.1)
      refine ⟨?_, beats_neg_trans (beats_pos_neg hb (beats_irrefl _ _)) ih2, ?_⟩
      · intro q hq
        rcases List.mem_cons.mp hq with rfl | hq'
        · exact ih2
        · exact ih1 q hq'
      · rcases ih3 with ⟨heq, hall⟩ | ⟨i, q, hget, heq, hbeat, hfirst⟩
        · refine Or.inr ⟨0, p, ?_, heq, hb, ?_⟩
          · rw [List.getElem?_cons_zero]
          · intro j q' hj hget'
            exact absurd hj (Nat.not_lt_zero j)
        · refine Or.inr ⟨i + 1, q, ?_, heq, beats_trans hbeat hb, ?_⟩
          · rw [List.getElem?_cons_succ]
            exact hget
          · intro j q' hj hget'
            cases j with
            | zero =>
              rw [List.getElem?_cons_zero] at hget'
              obtain rfl : p = q' := by simpa using hget'
              exact hbeat
            | succ k =>
              rw [List.getElem?_cons_succ] at hget'
              exact hfirst k q' (by omega) hget'

/-! ### Unfolding `_minimax` at a non-terminal node -/

theorem minimax_nonterminal_eq (fuel' : Nat) (b : Board) (is_maximizing : Bool)
    (dl : Option Nat) (depth : Nat)
    (hcw : check_winner b = none) (hdl : atDepthLimit dl depth = false) :
    minimax (fuel' + 1) b is_maximizing dl depth =
      ((((available_moves b).map (fun m =>
            (m, (minimax fuel' (b.set m (some (if is_maximizing then Mark.O else Mark.X)))
                  (!is_maximizing) dl (depth + 1)).1))).foldl
          (stepChoice is_maximizing)
          ((if is_maximizing then XScore.negInf else XScore.posInf), none)).1,
       (((available_moves b).map (fun m =>
            (m, (minimax fuel' (b.set m (some (if is_maximizing then Mark.O else Mark.X)))
                  (!is_maximizing) dl (depth + 1)).1))).foldl
          (stepChoice is_maximizing)
          ((if is_maximizing then XScore.negInf else XScore.posInf), none)).2,
       b) := by
  conv =>
    lhs
    rw [minimax]
  rw [hcw, hdl]
  simp only [Option.some.injEq, reduceCtorEq, if_false, Bool.false_eq_true]
  exact foldl_minimaxStep_spec _ _ _
    (fun b2 => minimax_board fuel' b2 (!is_maximizing) dl (depth + 1))
    (available_moves b) _ none b
    (fun m hm => (mem_available_moves b m).mp hm)

theorem mem_of_getElem?_some {α : Type} {l : List α} {i : Nat} {a : α}
    (h : l[i]? = some a) : a ∈ l := by
  obtain ⟨hlt, rfl⟩ := List.getElem?_eq_some.mp h
  exact List.getElem_mem hlt

/-! ### The score returned by `_minimax` is finite and lies in `[-10, 10]` -/

theorem minimax_score_range (fuel : Nat) :
    ∀ (b : Board) (is_maximizing : Bool) (dl : Option Nat) (depth : Nat),
      depth + fuel ≤ 20 →
      ∃ s : Int, (minimax fuel b is_maximizing dl depth).1 = XScore.fin s ∧
        -10 ≤ s ∧ s ≤ 10 := by
  induction fuel with
  | zero =>
    intro b is_maximizing dl depth h
    unfold minimax
    split
    · exact ⟨10 - (depth : Int), rfl, by omega, by omega⟩
    split
    · exact ⟨(depth : Int) - 10, rfl, by omega, by omega⟩
    split
    · exact ⟨0, rfl, by omega, by omega⟩
    split
    · exact ⟨0, rfl, by omega, by omega⟩
    · exact ⟨0, rfl, by omega, by omega⟩
  | succ fuel' ih =>
    intro b is_maximizing dl depth h
    cases hcw : check_winner b with
    | some r =>
      cases r with
      | mark m =>
        cases m with
        | O =>
          rw [minimax, hcw]
          simp only [if_pos]
          exact ⟨10 - (depth : Int), rfl, by omega, by omega⟩
        | X =>
          rw [minimax, hcw]
          simp only [Option.some.injEq, WinResult.mark.injEq, reduceCtorEq,
            if_false, if_pos]
          exact ⟨(depth : Int) - 10, rfl, by omega, by omega⟩
      | Draw =>
        rw [minimax, hcw]
        simp only [Option.some.injEq, WinResult.mark.injEq, reduceCtorEq,
          if_false, if_pos]
        exact ⟨0, rfl, by omega, by omega⟩
    | none =>
      cases hdl : atDepthLimit dl depth with
      | true =>
        rw [minimax, hcw, hdl]
        simp only [reduceCtorEq, if_false, if_pos]
        exact ⟨0, rfl, by omega, by omega⟩
      | false =>
        rw [minimax_nonterminal_eq fuel' b is_maximizing dl depth hcw hdl]
        have hpairfin : ∀ p ∈ (available_moves b).map (fun m =>
            (m, (minimax fuel' (b.set m (some (if is_maximizing then Mark.O else Mark.X)))
                  (!is_maximizing) dl (depth + 1)).1)),
            ∃ s : Int, p.2 = XScore.fin s ∧ -10 ≤ s ∧ s ≤ 10 := by
          intro p hp
          obtain ⟨m, hm, rfl⟩ := List.mem_map.mp hp
          exact ih _ (!is_maximizing) dl (depth + 1) (by omega)
        obtain ⟨hall, hinit, hcases⟩ := foldl_stepChoice_spec is_maximizing
          ((available_moves b).map (fun m =>
            (m, (minimax fuel' (b.set m (some (if is_maximizing then Mark.O else Mark.X)))
                  (!is_maximizing) dl (depth + 1)).1)))
          (if is_maximizing then XScore.negInf else XScore.posInf) none
        rcases hcases with ⟨heq, hnone⟩ | ⟨i, p, hget, heq, hbeat, hfirst⟩
        · exfalso
          have hne := avail_nonempty_of_undecided b hcw
          obtain ⟨m, hm⟩ := List.exists_mem_of_ne_nil (available_moves b) hne
          have hpm : ((m : Nat),
              (minimax fuel' (b.set m (some (if is_maximizing then Mark.O else Mark.X)))
                (!is_maximizing) dl (depth + 1)).1) ∈
              (available_moves b).map (fun m =>
                (m, (minimax fuel' (b.set m (some (if is_maximizing then Mark.O else Mark.X)))
                      (!is_maximizing) dl (depth + 1)).1)) :=
            List.mem_map_of_mem _ hm
          have hnb := hnone _ hpm
          obtain ⟨s, hs, _, _⟩ := hpairfin _ hpm
          rw [hs] at hnb
          cases is_maximizing <;> simp [beats, XScore.lt] at hnb
        · rw [heq]
          obtain ⟨s, hs, h1, h2⟩ := hpairfin p (mem_of_getElem?_some hget)
          exact ⟨s, hs, h1, h2⟩

/-! ### Concrete boards used as witnesses -/

/-- A board on which `O` has completed the first row. -/
def oWinBoard : Board :=
  [some Mark.O, some Mark.O, some Mark.O, none, none, none, none, none, none]

/-- A board on which `X` has completed the first row. -/
def xWinBoard : Board :=
  [some Mark.X, some Mark.X, some Mark.X, none, none, none, none, none, none]

/-- A full board with no winner (the draw scenario of the specification). -/
def drawBoard : Board :=
  [some Mark.X, some Mark.O, some Mark.X,
   some Mark.X, some Mark.O, some Mark.O,
   some Mark.O, some Mark.X, some Mark.X]

/-- The two-threats scenario board `[A,A,_,B,B,_,_,_,_]`. -/
def scenarioBoard : Board :=
  [some Mark.X, some Mark.X, none, some Mark.O, some Mark.O, none, none, none, none]

/-- C1: at a node whose board `check_winner` reports as already won by `O`,
`_minimax` returns `(10 - depth, None)` at once; won by `X`, `(depth - 10,
None)`; drawn, `(0, None)`; and when a finite `depth_limit` has been
reached (`depth >= depth_limit`) before a terminal state it returns
`(0, None)` without exploring further.  `depth` is the ply count from the
search's own root (`0` at the root call), and the board comes back
unchanged. -/
theorem minimax_terminal_scores (fuel : Nat) (b : Board) (is_maximizing : Bool)
    (dl : Option Nat) (depth : Nat) :
    (check_winner b = some (WinResult.mark Mark.O) →
      minimax fuel b is_maximizing dl depth = (XScore.fin (10 - (depth : Int)), none, b)) ∧
    (check_winner b = some (WinResult.mark Mark.X) →
      minimax fuel b is_maximizing dl depth = (XScore.fin ((depth : Int) - 10), none, b)) ∧
    (check_winner b = some WinResult.Draw →
      minimax fuel b is_maximizing dl depth = (XScore.fin 0, none, b)) ∧
    (∀ L : Nat, check_winner b = none → dl = some L → L ≤ depth →
      minimax fuel b is_maximizing dl depth = (XScore.fin 0, none, b)) := by
  refine ⟨?_, ?_, ?_, ?_⟩
  · intro hcw
    rw [minimax.eq_def, hcw]
    simp
  · intro hcw
    rw [minimax.eq_def, hcw]
    simp
  · intro hcw
    rw [minimax.eq_def, hcw]
    simp
  · intro L hcw hdl hle
    subst hdl
    rw [minimax.eq_def, hcw]
    have hat : atDepthLimit (some L) depth = true := by
      simp [atDepthLimit, hle]
    rw [hat]
    simp

/-- Witness for `minimax_terminal_scores` at concrete boards. -/
theorem minimax_terminal_scores_witness :
    minimax 9 oWinBoard true none 0 = (XScore.fin 10, none, oWinBoard) ∧
    minimax 9 xWinBoard true none 0 = (XScore.fin (-10), none, xWinBoard) ∧
    minimax 9 drawBoard true none 0 = (XScore.fin 0, none, drawBoard) ∧
    minimax 9 emptyBoard true (some 0) 0 = (XScore.fin 0, none, emptyBoard) :=
  ⟨(minimax_terminal_scores 9 oWinBoard true none 0).1 (by decide),
   (minimax_terminal_scores 9 xWinBoard true none 0).2.1 (by decide),
   (minimax_terminal_scores 9 drawBoard true none 0).2.2.1 (by decide),
   (minimax_terminal_scores 9 emptyBoard true (some 0) 0).2.2.2 0 (by decide) rfl
     (by decide)⟩

/-- C5: `available_moves` returns exactly the indices holding an empty
cell, in strictly ascending order, and its length is the number of empty
cells of the board. -/
theorem available_moves_spec (b : Board) :
    (∀ m : Nat, m ∈ available_moves b ↔ b[m]? = some none) ∧
    (available_moves b).Pairwise (fun i j => i < j) ∧
    (available_moves b).length = b.countP (fun c => c.isNone) :=
  ⟨fun m => mem_available_moves b m, availFrom_pairwise b 0, availFrom_length b 0⟩

/-- C6: a `_minimax` call leaves the caller's board exactly as it found it:
every hypothetical placement made during the walk has been undone when the
call returns. -/
theorem minimax_preserves_board (fuel : Nat) (b : Board) (is_maximizing : Bool)
    (dl : Option Nat) (depth : Nat) :
    (minimax fuel b is_maximizing dl depth).2.2 = b :=
  minimax_board fuel b is_maximizing dl depth

/-- C10: the score of a top-level `_minimax` search is a finite value in
`[-10, 10]`: the `±inf` initial values of the move loop never escape. -/
theorem minimaxTop_score_range (b : Board) (is_maximizing : Bool) (dl : Option Nat) :
    ∃ s : Int, (minimaxTop b is_maximizing dl).1 = XScore.fin s ∧
      -10 ≤ s ∧ s ≤ 10 := by
  have h := minimax_score_range 9 b is_maximizing dl 0 (by omega)
  simpa [minimaxTop] using h

set_option maxRecDepth 100000 in
set_option maxHeartbeats 1000000 in
/-- C2 counterexample: on the two-threats scenario board the search does
pick move 5, but the score is not 10: the win is scored at the depth of
the child node (`10 - 1 = 9`), not of the root. -/
theorem minimax_scenario_counterexample :
    (minimaxTop scenarioBoard true none).2 = some 5 ∧
    (minimaxTop scenarioBoard true none).1 ≠ XScore.fin 10 := by
  constructor
  · decide
  · decide

set_option maxRecDepth 100000 in
set_option maxHeartbeats 1000000 in
/-- C2 amended: on board `[A,A,_,B,B,_,_,_,_]` with the computer `B = O`
maximizing and unbounded depth, the search returns move 5 (completing
`O`'s row, an immediate win) with score `9 = 10 - 1`: the win one ply
below the root is scored at depth 1. -/
theorem minimax_scenario :
    minimaxTop scenarioBoard true none = (XScore.fin 9, some 5) := by
  decide

/-! ### What a top-level search returns on a non-terminal board -/

/-- The score the root loop of a top-level `_minimax` call obtains for a
legal move `m`: the recursive evaluation, one ply deeper with the role
flipped, of the board with the root player's mark placed on `m`. -/
def childScore (b : Board) (is_maximizing : Bool) (dl : Option Nat) (m : Nat) : XScore :=
  (minimax 8 (b.set m (some (if is_maximizing then Mark.O else Mark.X)))
    (!is_maximizing) dl 1).1

theorem minimaxTop_nonterminal_spec (b : Board) (is_maximizing : Bool)
    (dl : Option Nat) (hcw : check_winner b = none)
    (hdl : atDepthLimit dl 0 = false) :
    ∃ (i : Nat) (m : Nat),
      (available_moves b)[i]? = some m ∧
      (minimaxTop b is_maximizing dl).2 = some m ∧
      (minimaxTop b is_maximizing dl).1 = childScore b is_maximizing dl m ∧
      (∀ m2 ∈ available_moves b,
        beats is_maximizing (childScore b is_maximizing dl m2)
          (childScore b is_maximizing dl m) = false) ∧
      (∀ (j : Nat) (m2 : Nat), j < i → (available_moves b)[j]? = some m2 →
        beats is_maximizing (childScore b is_maximizing dl m)
          (childScore b is_maximizing dl m2) = true) := by
  have hunf := minimax_nonterminal_eq 8 b is_maximizing dl 0 hcw hdl
  have hpairfin : ∀ p ∈ (available_moves b).map (fun m =>
      (m, (minimax 8 (b.set m (some (if is_maximizing then Mark.O else Mark.X)))
            (!is_maximizing) dl (0 + 1)).1)),
      ∃ s : Int, p.2 = XScore.fin s := by
    intro p hp
    obtain ⟨m, hm, rfl⟩ := List.mem_map.mp hp
    obtain ⟨s, hs, _, _⟩ := minimax_score_range 8 _ (!is_maximizing) dl (0 + 1) (by omega)
    exact ⟨s, hs⟩
  obtain ⟨hall, hinit, hcases⟩ := foldl_stepChoice_spec is_maximizing
    ((available_moves b).map (fun m =>
      (m, (minimax 8 (b.set m (some (if is_maximizing then Mark.O else Mark.X)))
            (!is_maximizing) dl (0 + 1)).1)))
    (if is_maximizing then XScore.negInf else XScore.posInf) none
  rcases hcases with ⟨heq, hnone⟩ | ⟨i, p, hget, heq, hbeat, hfirst⟩
  · exfalso
    have hne := avail_nonempty_of_undecided b hcw
    obtain ⟨m, hm⟩ := List.exists_mem_of_ne_nil (available_moves b) hne
    have hpm : ((m : Nat),
        (minimax 8 (b.set m (some (if is_maximizing then Mark.O else Mark.X)))
          (!is_maximizing) dl (0 + 1)).1) ∈
        (available_moves b).map (fun m =>
          (m, (minimax 8 (b.set m (some (if is_maximizing then Mark.O else Mark.X)))
                (!is_maximizing) dl (0 + 1)).1)) :=
      List.mem_map_of_mem _ hm
    have hnb := hnone _ hpm
    obtain ⟨s, hs⟩ := hpairfin _ hpm
    rw [hs] at hnb
    cases is_maximizing <;> simp [beats, XScore.lt] at hnb
  · obtain ⟨m, hmget, hmp⟩ : ∃ m, (available_moves b)[i]? = some m ∧
        p = (m, (minimax 8 (b.set m (some (if is_maximizing then Mark.O else Mark.X)))
              (!is_maximizing) dl (0 + 1)).1) := by
      rw [List.getElem?_map] at hget
      cases hx : (available_moves b)[i]? with
      | none => rw [hx] at hget; simp at hget
      | some m =>
        rw [hx] at hget
        simp only [Option.map_some', Option.some.injEq] at hget
        exact ⟨m, rfl, hget.symm⟩
    subst hmp
    refine ⟨i, m, hmget, ?_, ?_, ?_, ?_⟩
    · show (minimax 9 b is_maximizing dl 0).2.1 = some m
      rw [hunf, heq]
    · show (minimax 9 b is_maximizing dl 0).1 = childScore b is_maximizing dl m
      rw [hunf, heq]
      rfl
    · intro m2 hm2
      have hp2 : ((m2 : Nat),
          (minimax 8 (b.set m2 (some (if is_maximizing then Mark.O else Mark.X)))
            (!is_maximizing) dl (0 + 1)).1) ∈
          (available_moves b).map (fun m =>
            (m, (minimax 8 (b.set m (some (if is_maximizing then Mark.O else Mark.X)))
                  (!is_maximizing) dl (0 + 1)).1)) :=
        List.mem_map_of_mem _ hm2
      have := hall _ hp2
      rw [heq] at this
      exact this
    · intro j m2 hj hjget
      have hjp : ((available_moves b).map (fun m =>
          (m, (minimax 8 (b.set m (some (if is_maximizing then Mark.O else Mark.X)))
                (!is_maximizing) dl (0 + 1)).1)))[j]? = some
          (m2, (minimax 8 (b.set m2 (some (if is_maximizing then Mark.O else Mark.X)))
                (!is_maximizing) dl (0 + 1)).1) := by
        rw [List.getElem?_map, hjget]
        rfl
      exact hfirst j _ hj hjp

theorem atDepthLimit_zero_false (dl : Option Nat) (hdl : ∀ L, dl = some L → 0 < L) :
    atDepthLimit dl 0 = false := by
  cases dl with
  | none => rfl
  | some L =>
    have hL := hdl L rfl
    simp [atDepthLimit]
    omega

/-- C3: on a non-terminal board within the depth budget, the search scans
the legal moves in strictly ascending index order and returns the first
move whose recursive score is extremal: no other legal move beats the
chosen move's score, and every legal move scanned before the chosen one
is strictly beaten by it (ties are broken in favour of the earliest
move, deterministically). -/
theorem minimax_selects_first_extremal (b : Board) (is_maximizing : Bool)
    (dl : Option Nat) (hcw : check_winner b = none)
    (hdl : ∀ L, dl = some L → 0 < L) :
    (available_moves b).Pairwise (fun i j => i < j) ∧
    ∃ (i m : Nat),
      (available_moves b)[i]? = some m ∧
      (minimaxTop b is_maximizing dl).2 = some m ∧
      (minimaxTop b is_maximizing dl).1 = childScore b is_maximizing dl m ∧
      (∀ m2 ∈ available_moves b,
        beats is_maximizing (childScore b is_maximizing dl m2)
          (childScore b is_maximizing dl m) = false) ∧
      (∀ (j m2 : Nat), j < i → (available_moves b)[j]? = some m2 →
        beats is_maximizing (childScore b is_maximizing dl m)
          (childScore b is_maximizing dl m2) = true) :=
  ⟨availFrom_pairwise b 0,
   minimaxTop_nonterminal_spec b is_maximizing dl hcw
     (atDepthLimit_zero_false dl hdl)⟩

/-- Witness for `minimax_selects_first_extremal` on the two-threats board. -/
theorem minimax_selects_first_extremal_witness :
    (available_moves scenarioBoard).Pairwise (fun i j => i < j) ∧
    ∃ (i m : Nat),
      (available_moves scenarioBoard)[i]? = some m ∧
      (minimaxTop scenarioBoard true none).2 = some m ∧
      (minimaxTop scenarioBoard true none).1 = childScore scenarioBoard true none m ∧
      (∀ m2 ∈ available_moves scenarioBoard,
        beats true (childScore scenarioBoard true none m2)
          (childScore scenarioBoard true none m) = false) ∧
      (∀ (j m2 : Nat), j < i → (available_moves scenarioBoard)[j]? = some m2 →
        beats true (childScore scenarioBoard true none m)
          (childScore scenarioBoard true none m2) = true) :=
  minimax_selects_first_extremal scenarioBoard true none (by decide)
    (fun L h => by cases h)

/-- C8 counterexample: a `None` move does not only occur when no legal move
exists.  With `depth_limit = 0` (a permitted non-negative cap) the search
returns a `None` move on the empty board, and on a board already won by
`O` it returns a `None` move although six legal moves exist. -/
theorem minimax_no_move_counterexample :
    (available_moves emptyBoard ≠ [] ∧
      (minimaxTop emptyBoard true (some 0)).2 = none) ∧
    (available_moves oWinBoard ≠ [] ∧
      (minimaxTop oWinBoard true none).2 = none) :=
  ⟨⟨by decide, by decide⟩, ⟨by decide, by decide⟩⟩

/-- C8 amended: on a board that is still undecided (`check_winner` returns
`None`) and with a depth limit that is unbounded or positive, the search
returns a move, and that move is legal; a `None` move occurs only on
terminal boards or with an exhausted depth budget. -/
theorem minimaxTop_returns_legal_move (b : Board) (is_maximizing : Bool)
    (dl : Option Nat) (hcw : check_winner b = none)
    (hdl : ∀ L, dl = some L → 0 < L) :
    ∃ m, (minimaxTop b is_maximizing dl).2 = some m ∧ m ∈ available_moves b := by
  obtain ⟨i, m, hget, hmv, _⟩ := minimaxTop_nonterminal_spec b is_maximizing dl hcw
    (atDepthLimit_zero_false dl hdl)
  exact ⟨m, hmv, mem_of_getElem?_some hget⟩

/-- Witness for `minimaxTop_returns_legal_move` with the Medium depth cap. -/
theorem minimaxTop_returns_legal_move_witness :
    ∃ m, (minimaxTop emptyBoard true (some 3)).2 = some m ∧
      m ∈ available_moves emptyBoard :=
  minimaxTop_returns_legal_move emptyBoard true (some 3) (by decide)
    (fun L h => by cases h; decide)

/-! ### `check_winner` against the winning lines -/

/-- Line `l` of the board holds three equal non-empty cells of mark `m`. -/
def lineWins (b : Board) (l : Nat × Nat × Nat) (m : Mark) : Prop :=
  b.getD l.1 none = some m ∧ b.getD l.2.1 none = some m ∧ b.getD l.2.2 none = some m

instance (b : Board) (l : Nat × Nat × Nat) (m : Mark) : Decidable (lineWins b l m) := by
  unfold lineWins
  infer_instance

theorem find_line_winner_some (ls : List (Nat × Nat × Nat)) (b : Board) :
    ∀ m, find_line_winner ls b = some m → ∃ l ∈ ls, lineWins b l m := by
  induction ls with
  | nil => intro m h; simp [find_line_winner] at h
  | cons l rest ih =>
    obtain ⟨a, bb, c⟩ := l
    intro m h
    rw [find_line_winner] at h
    split at h
    · rename_i m2 hga
      split at h
      · rename_i hcond
        obtain rfl : m2 = m := by simpa using h
        exact ⟨(a, bb, c), List.mem_cons_self _ _, hga, hcond.1, hcond.2⟩
      · obtain ⟨l2, hl2, hw⟩ := ih m h
        exact ⟨l2, List.mem_cons_of_mem _ hl2, hw⟩
    · obtain ⟨l2, hl2, hw⟩ := ih m h
      exact ⟨l2, List.mem_cons_of_mem _ hl2, hw⟩

theorem find_line_winner_none (ls : List (Nat × Nat × Nat)) (b : Board) :
    find_line_winner ls b = none → ∀ l ∈ ls, ∀ m, ¬ lineWins b l m := by
  induction ls with
  | nil => intro _ l hl; simp at hl
  | cons l rest ih =>
    obtain ⟨a, bb, c⟩ := l
    intro h l2 hl2 m hw
    rw [find_line_winner] at h
    split at h
    · rename_i m2 hga
      split at h
      · exact absurd h (by simp)
      · rename_i hcond
        rcases List.mem_cons.mp hl2 with rfl | hl2'
        · obtain ⟨h1, h2, h3⟩ := hw
          rw [hga] at h1
          obtain rfl : m2 = m := by simpa using h1
          exact hcond ⟨h2, h3⟩
        · exact ih h l2 hl2' m hw
    · rename_i hga
      rcases List.mem_cons.mp hl2 with rfl | hl2'
      · obtain ⟨h1, h2, h3⟩ := hw
        rw [hga] at h1
        exact absurd h1 (by simp)
      · exact ih h l2 hl2' m hw

/-- A board on which both players hold a complete line (unreachable in a
real game, but a board nonetheless): `X` owns row `(0,1,2)`, `O` owns row
`(3,4,5)`. -/
def doubleWinBoard : Board :=
  [some Mark.X, some Mark.X, some Mark.X,
   some Mark.O, some Mark.O, some Mark.O, none, none, none]

/-- C4 counterexample: `(3,4,5)` is a winning line of `doubleWinBoard`
holding three `O` marks, yet `check_winner` does not return `O` — it
returns the mark of the first winning line in its fixed scan order
(`X`'s row `(0,1,2)`). -/
theorem check_winner_counterexample :
    ((3, 4, 5) ∈ winning_lines ∧ lineWins doubleWinBoard (3, 4, 5) Mark.O) ∧
    check_winner doubleWinBoard ≠ some (WinResult.mark Mark.O) :=
  ⟨⟨by decide, by decide⟩, by decide⟩

/-- C4 amended: if any of the 8 winning lines holds three equal non-empty
marks, `check_winner` returns the mark of a winning line — the first one
in its fixed scan order, hence never `Draw` or undecided (`None`); when
several lines are complete it returns the first such line's mark, which
need not be the mark of every complete line.  If no line is complete, it
returns `Draw` when no cell is empty and `None` otherwise.  (The
embedding is a pure function, so the call cannot mutate the board.) -/
theorem check_winner_spec (b : Board) :
    (∀ (l : Nat × Nat × Nat) (m : Mark), l ∈ winning_lines → lineWins b l m →
      ∃ m2, check_winner b = some (WinResult.mark m2) ∧
        ∃ l2 ∈ winning_lines, lineWins b l2 m2) ∧
    ((∀ l ∈ winning_lines, ∀ m : Mark, ¬ lineWins b l m) →
      (∀ c ∈ b, c.isSome = true) → check_winner b = some WinResult.Draw) ∧
    ((∀ l ∈ winning_lines, ∀ m : Mark, ¬ lineWins b l m) →
      ¬ (∀ c ∈ b, c.isSome = true) → check_winner b = none) := by
  refine ⟨?_, ?_, ?_⟩
  · intro l m hl hw
    cases hf : find_line_winner winning_lines b with
    | none => exact absurd hw (find_line_winner_none winning_lines b hf l hl m)
    | some m2 =>
      refine ⟨m2, ?_, find_line_winner_some winning_lines b m2 hf⟩
      rw [check_winner, hf]
  · intro hnl hfull
    cases hf : find_line_winner winning_lines b with
    | some m2 =>
      obtain ⟨l2, hl2, hw2⟩ := find_line_winner_some winning_lines b m2 hf
      exact absurd hw2 (hnl l2 hl2 m2)
    | none =>
      rw [check_winner, hf]
      rw [if_pos (List.all_eq_true.mpr hfull)]
  · intro hnl hsome
    cases hf : find_line_winner winning_lines b with
    | some m2 =>
      obtain ⟨l2, hl2, hw2⟩ := find_line_winner_some winning_lines b m2 hf
      exact absurd hw2 (hnl l2 hl2 m2)
    | none =>
      rw [check_winner, hf]
      rw [if_neg (fun hall => hsome (List.all_eq_true.mp hall))]

/-- Witness for `check_winner_spec` at concrete boards: a won board, the
drawn board of the specification, and the empty board. -/
theorem check_winner_spec_witness :
    (∃ m2, check_winner xWinBoard = some (WinResult.mark m2) ∧
      ∃ l2 ∈ winning_lines, lineWins xWinBoard l2 m2) ∧
    check_winner drawBoard = some WinResult.Draw ∧
    check_winner emptyBoard = none :=
  ⟨(check_winner_spec xWinBoard).1 (0, 1, 2) Mark.X (by decide) (by decide),
   (check_winner_spec drawBoard).2.1 (by decide) (by decide),
   (check_winner_spec emptyBoard).2.2 (by decide) (by decide)⟩

/-! ### Turn handling: `handle_move` and `reset_board` -/

/-- The game-progress state of `TicTacToeGame`: `self.board`,
`self.current_player` and `self.game_over` (the widget mirror of the board
is out of scope). -/
structure GameState where
  board : Board
  current_player : Mark
  game_over : Bool
deriving DecidableEq, Repr

/-- `TicTacToeGame.handle_move`: rejected as a no-op when the game is over
or the target cell is not empty (an out-of-range index, impossible from
the 9 buttons, is also modelled as a rejection); otherwise places the
current player's mark, ends the game if `check_winner` reports a result,
and else switches the turn.  The AI trigger at the end of the source
function is a further `handle_move` call made by the controller and is
modelled as such. -/
def handle_move (s : GameState) (index : Nat) : GameState :=
  if s.game_over then s
  else
    match s.board[index]? with
    | some none =>
      match check_winner (s.board.set index (some s.current_player)) with
      | some _ => ⟨s.board.set index (some s.current_player), s.current_player, true⟩
      | none =>
        ⟨s.board.set index (some s.current_player),
         if s.current_player = Mark.X then Mark.O else Mark.X, false⟩
    | _ => s

/-- `TicTacToeGame.reset_board`: a fresh empty board, the human mark `X`
to move, game not over. -/
def reset_board (_s : GameState) : GameState :=
  ⟨List.replicate 9 none, Mark.X, false⟩

theorem handle_move_cell_mono (s : GameState) (i j : Nat) (m : Mark)
    (h : s.board[j]? = some (some m)) :
    (handle_move s i).board[j]? = some (some m) := by
  unfold handle_move
  split
  · exact h
  · split
    · rename_i hcell
      have hij : i ≠ j := by
        intro heq
        subst heq
        rw [hcell] at h
        simp at h
      split
      · show (s.board.set i (some s.current_player))[j]? = some (some m)
        rw [List.getElem?_set_ne hij]
        exact h
      · show (s.board.set i (some s.current_player))[j]? = some (some m)
        rw [List.getElem?_set_ne hij]
        exact h
    · exact h

theorem foldl_handle_move_cell_mono (moves : List Nat) :
    ∀ (s : GameState) (j : Nat) (m : Mark),
      s.board[j]? = some (some m) →
      ((moves.foldl handle_move s).board)[j]? = some (some m) := by
  induction moves with
  | nil => intro s j m h; exact h
  | cons i rest ih =>
    intro s j m h
    rw [List.foldl_cons]
    exact ih (handle_move s i) j m (handle_move_cell_mono s i j m h)

/-- C9: cells are write-once between resets.  Over any sequence of
`handle_move` calls a non-empty cell keeps its mark (it is never
overwritten or cleared); a move made after the game is over, or aimed at
a non-empty cell, is rejected as a no-op that leaves the board, the turn
and the game-over flag unchanged; and a reset restores nine empty cells,
the human mark `X` to move, and a cleared game-over flag. -/
theorem handle_move_write_once (s : GameState) :
    (∀ (moves : List Nat) (j : Nat) (m : Mark),
      s.board[j]? = some (some m) →
      ((moves.foldl handle_move s).board)[j]? = some (some m)) ∧
    (s.game_over = true → ∀ i, handle_move s i = s) ∧
    (∀ (i : Nat) (m : Mark), s.board[i]? = some (some m) → handle_move s i = s) ∧
    ((reset_board s).board = List.replicate 9 none ∧
      (reset_board s).current_player = Mark.X ∧
      (reset_board s).game_over = false) := by
  refine ⟨fun moves => foldl_handle_move_cell_mono moves s, ?_, ?_, rfl, rfl, rfl⟩
  · intro hgo i
    unfold handle_move
    rw [if_pos hgo]
  · intro i m h
    unfold handle_move
    split
    · rfl
    · split
      · rename_i hcell
        rw [hcell] at h
        simp at h
      · rfl

/-- Witness for `handle_move_write_once` at concrete states: a mark at
cell 0 survives the move sequence `[0, 1]`, a finished game rejects a
move, an occupied cell rejects a move, and reset clears everything. -/
theorem handle_move_write_once_witness :
    (([0, 1].foldl handle_move
        ⟨[some Mark.X, none, none, none, none, none, none, none, none],
          Mark.O, false⟩).board)[0]? = some (some Mark.X) ∧
    handle_move ⟨drawBoard, Mark.X, true⟩ 0 = ⟨drawBoard, Mark.X, true⟩ ∧
    handle_move ⟨[some Mark.X, none, none, none, none, none, none, none, none],
        Mark.O, false⟩ 0 =
      ⟨[some Mark.X, none, none, none, none, none, none, none, none],
        Mark.O, false⟩ ∧
    (reset_board ⟨drawBoard, Mark.X, true⟩).board = List.replicate 9 none :=
  ⟨(handle_move_write_once
      ⟨[some Mark.X, none, none, none, none, none, none, none, none],
        Mark.O, false⟩).1 [0, 1] 0 Mark.X (by decide),
   (handle_move_write_once ⟨drawBoard, Mark.X, true⟩).2.1 rfl 0,
   (handle_move_write_once
      ⟨[some Mark.X, none, none, none, none, none, none, none, none],
        Mark.O, false⟩).2.2.1 0 Mark.X (by decide),
   (handle_move_write_once ⟨drawBoard, Mark.X, true⟩).2.2.2.1⟩

/-! ### A faster but provably equal form of `check_winner`

`check_winner_fast` computes the same result as `check_winner` (the
equality `check_winner_fast_eq` below is definitional case by case) but
reads the nine cells of the board once instead of through repeated
indexing, which keeps the exhaustive game analysis of `Reach` below
within reach of kernel reduction. -/

/-- One line check of `find_line_winner`, on already-fetched cells. -/
def lw3 (x y z : Cell) (next : Option Mark) : Option Mark :=
  match x with
  | some m => if y = some m ∧ z = some m then some m else next
  | none => next

/-- `find_line_winner winning_lines` on the nine cells of the board. -/
def fiw9 (c0 c1 c2 c3 c4 c5 c6 c7 c8 : Cell) : Option Mark :=
  lw3 c0 c1 c2 (lw3 c3 c4 c5 (lw3 c6 c7 c8 (lw3 c0 c3 c6 (lw3 c1 c4 c7
    (lw3 c2 c5 c8 (lw3 c0 c4 c8 (lw3 c2 c4 c6 none)))))))

/-- `check_winner`, destructuring the 9-cell board once. -/
def check_winner_fast (b : Board) : Option WinResult :=
  match b with
  | [c0, c1, c2, c3, c4, c5, c6, c7, c8] =>
    match fiw9 c0 c1 c2 c3 c4 c5 c6 c7 c8 with
    | some m => some (WinResult.mark m)
    | none =>
      if c0.isSome && (c1.isSome && (c2.isSome && (c3.isSome && (c4.isSome &&
          (c5.isSome && (c6.isSome && (c7.isSome && (c8.isSome && true)))))))) then
        some WinResult.Draw
      else none
  | b2 => check_winner b2

theorem check_winner_fast_eq (b : Board) : check_winner_fast b = check_winner b := by
  match b with
  | [] => rfl
  | [_] => rfl
  | [_, _] => rfl
  | [_, _, _] => rfl
  | [_, _, _, _] => rfl
  | [_, _, _, _, _] => rfl
  | [_, _, _, _, _, _] => rfl
  | [_, _, _, _, _, _, _] => rfl
  | [_, _, _, _, _, _, _, _] => rfl
  | [_, _, _, _, _, _, _, _, _] => rfl
  | _ :: _ :: _ :: _ :: _ :: _ :: _ :: _ :: _ :: _ :: _ => rfl

/-! ### The game analysis checker `XCanForceWin` -/

/-- The empty cells of the board reordered centre first, then the other
even (corner) indices, then the odd (edge) indices: a move ordering that
lets the checker find the computer's drawing replies early.  Only the
set of members matters for its meaning (`mem_orderMoves`). -/
def orderMoves (ms : List Nat) : List Nat :=
  ms.filter (fun m => m == 4) ++
    (ms.filter (fun m => m % 2 == 0 && m != 4) ++ ms.filter (fun m => m % 2 == 1))

theorem mem_orderMoves (ms : List Nat) (m : Nat) : m ∈ orderMoves ms ↔ m ∈ ms := by
  simp only [orderMoves, List.mem_append, List.mem_filter]
  constructor
  · rintro (⟨h, _⟩ | ⟨h, _⟩ | ⟨h, _⟩) <;> exact h
  · intro h
    by_cases h4 : m = 4
    · exact Or.inl ⟨h, by simp [h4]⟩
    · by_cases he : m % 2 = 0
      · exact Or.inr (Or.inl ⟨h, by simp [he, h4]⟩)
      · have ho : m % 2 = 1 := by omega
        exact Or.inr (Or.inr ⟨h, by simp [ho]⟩)

/-- `XCanForceWin fuel b xToMove` decides whether the human mark `X` can
force a win from board `b` with `xToMove` telling whose turn it is,
looking `fuel` plies ahead (with `fuel` at least the number of empty
cells the answer is exact; the game analysis only uses it so).  `X` to
move forces a win when some legal move does; `O` to move fails to prevent
it only when every legal move does.  This is the classical game-theoretic
predicate — `minimax_sign_iff` below proves it equivalent to the sign of
the `_minimax` score. -/
def XCanForceWin (fuel : Nat) (b : Board) (xToMove : Bool) : Bool :=
  if check_winner_fast b = some (WinResult.mark Mark.X) then true
  else if check_winner_fast b = none then
    match fuel with
    | 0 => false
    | fuel2 + 1 =>
      if xToMove then
        (available_moves b).any
          (fun m => XCanForceWin fuel2 (b.set m (some Mark.X)) false)
      else
        (orderMoves (available_moves b)).all
          (fun m => XCanForceWin fuel2 (b.set m (some Mark.O)) true)
  else false

theorem xcfw_terminal (fuel : Nat) (b : Board) (t : Bool) (r : WinResult)
    (h : check_winner b = some r) :
    XCanForceWin fuel b t = decide (r = WinResult.mark Mark.X) := by
  rw [XCanForceWin.eq_def, check_winner_fast_eq, h]
  cases r with
  | Draw => simp
  | mark m => cases m <;> simp

theorem xcfw_x_turn (fuel : Nat) (b : Board) (h : check_winner b = none) :
    XCanForceWin (fuel + 1) b true =
      (available_moves b).any
        (fun m => XCanForceWin fuel (b.set m (some Mark.X)) false) := by
  rw [XCanForceWin.eq_def, check_winner_fast_eq, h]
  rfl

theorem xcfw_o_turn (fuel : Nat) (b : Board) (h : check_winner b = none) :
    XCanForceWin (fuel + 1) b false =
      (orderMoves (available_moves b)).all
        (fun m => XCanForceWin fuel (b.set m (some Mark.O)) true) := by
  rw [XCanForceWin.eq_def, check_winner_fast_eq, h]
  rfl

/-! ### Terminal value equations for `_minimax` (internal helpers) -/

theorem minimax_eq_O_win (fuel : Nat) (b : Board) (is_maximizing : Bool)
    (dl : Option Nat) (depth : Nat) (h : check_winner b = some (WinResult.mark Mark.O)) :
    minimax fuel b is_maximizing dl depth = (XScore.fin (10 - (depth : Int)), none, b) := by
  rw [minimax.eq_def, h]
  simp

theorem minimax_eq_X_win (fuel : Nat) (b : Board) (is_maximizing : Bool)
    (dl : Option Nat) (depth : Nat) (h : check_winner b = some (WinResult.mark Mark.X)) :
    minimax fuel b is_maximizing dl depth = (XScore.fin ((depth : Int) - 10), none, b) := by
  rw [minimax.eq_def, h]
  simp

theorem minimax_eq_draw (fuel : Nat) (b : Board) (is_maximizing : Bool)
    (dl : Option Nat) (depth : Nat) (h : check_winner b = some WinResult.Draw) :
    minimax fuel b is_maximizing dl depth = (XScore.fin 0, none, b) := by
  rw [minimax.eq_def, h]
  simp

/-! ### Counting empty cells -/

theorem countP_isNone_set (mk : Mark) (l : List Cell) :
    ∀ (i : Nat), l[i]? = some none →
      (l.set i (some mk)).countP (fun c => c.isNone) + 1 =
        l.countP (fun c => c.isNone) := by
  induction l with
  | nil => intro i h; simp at h
  | cons c t ih =>
    intro i h
    cases i with
    | zero =>
      rw [List.getElem?_cons_zero] at h
      obtain rfl : c = none := by simpa using h
      show (some mk :: t).countP (fun c => c.isNone) + 1 = _
      simp [List.countP_cons]
    | succ j =>
      rw [List.getElem?_cons_succ] at h
      show (c :: t.set j (some mk)).countP (fun c => c.isNone) + 1 = _
      rw [List.countP_cons, List.countP_cons]
      have := ih j h
      omega

theorem check_winner_of_full (b : Board)
    (h : b.countP (fun c => c.isNone) = 0) : ∃ r, check_winner b = some r := by
  have hall : b.all (fun value => value.isSome) = true := by
    rw [List.all_eq_true]
    intro c hc
    have hnc := List.countP_eq_zero.mp h c hc
    cases c with
    | none => simp at hnc
    | some m => rfl
  unfold check_winner
  cases hf : find_line_winner winning_lines b with
  | some m => exact ⟨WinResult.mark m, rfl⟩
  | none => exact ⟨WinResult.Draw, by rw [hall]; rfl⟩

/-! ### `XCanForceWin` is insensitive to surplus fuel -/

theorem list_any_congr {α : Type} (l : List α) {f g : α → Bool}
    (h : ∀ x ∈ l, f x = g x) : l.any f = l.any g := by
  induction l with
  | nil => rfl
  | cons a t ih =>
    rw [List.any_cons, List.any_cons, h a (List.mem_cons_self a t),
      ih (fun x hx => h x (List.mem_cons_of_mem a hx))]

theorem list_all_congr {α : Type} (l : List α) {f g : α → Bool}
    (h : ∀ x ∈ l, f x = g x) : l.all f = l.all g := by
  induction l with
  | nil => rfl
  | cons a t ih =>
    rw [List.all_cons, List.all_cons, h a (List.mem_cons_self a t),
      ih (fun x hx => h x (List.mem_cons_of_mem a hx))]

theorem xcfw_fuel_succ (fuel : Nat) :
    ∀ (b : Board) (t : Bool), b.countP (fun c => c.isNone) ≤ fuel →
      XCanForceWin fuel b t = XCanForceWin (fuel + 1) b t := by
  induction fuel with
  | zero =>
    intro b t h
    obtain ⟨r, hr⟩ := check_winner_of_full b (Nat.le_zero.mp h)
    rw [xcfw_terminal 0 b t r hr, xcfw_terminal 1 b t r hr]
  | succ n ih =>
    intro b t h
    cases hcw : check_winner b with
    | some r => rw [xcfw_terminal (n + 1) b t r hcw, xcfw_terminal (n + 2) b t r hcw]
    | none =>
      have hchild : ∀ mk (m : Nat), m ∈ available_moves b →
          (b.set m (some mk)).countP (fun c => c.isNone) ≤ n := by
        intro mk m hm
        have hcell := (mem_available_moves b m).mp hm
        have := countP_isNone_set mk b m hcell
        omega
      cases t with
      | true =>
        rw [xcfw_x_turn n b hcw, xcfw_x_turn (n + 1) b hcw]
        exact list_any_congr _ (fun m hm => ih _ false (hchild Mark.X m hm))
      | false =>
        rw [xcfw_o_turn n b hcw, xcfw_o_turn (n + 1) b hcw]
        exact list_all_congr _
          (fun m hm => ih _ true (hchild Mark.O m ((mem_orderMoves _ m).mp hm)))

/-! ### The sign of the `_minimax` score is the game-theoretic predicate -/

theorem minimax_nonterminal_eq_max (fuel' : Nat) (b : Board) (dl : Option Nat)
    (depth : Nat) (hcw : check_winner b = none) (hdl : atDepthLimit dl depth = false) :
    minimax (fuel' + 1) b true dl depth =
      ((((available_moves b).map (fun m =>
            (m, (minimax fuel' (b.set m (some Mark.O)) false dl (depth + 1)).1))).foldl
          (stepChoice true) (XScore.negInf, none)).1,
       (((available_moves b).map (fun m =>
            (m, (minimax fuel' (b.set m (some Mark.O)) false dl (depth + 1)).1))).foldl
          (stepChoice true) (XScore.negInf, none)).2,
       b) := by
  have h := minimax_nonterminal_eq fuel' b true dl depth hcw hdl
  simpa using h

theorem minimax_nonterminal_eq_min (fuel' : Nat) (b : Board) (dl : Option Nat)
    (depth : Nat) (hcw : check_winner b = none) (hdl : atDepthLimit dl depth = false) :
    minimax (fuel' + 1) b false dl depth =
      ((((available_moves b).map (fun m =>
            (m, (minimax fuel' (b.set m (some Mark.X)) true dl (depth + 1)).1))).foldl
          (stepChoice false) (XScore.posInf, none)).1,
       (((available_moves b).map (fun m =>
            (m, (minimax fuel' (b.set m (some Mark.X)) true dl (depth + 1)).1))).foldl
          (stepChoice false) (XScore.posInf, none)).2,
       b) := by
  have h := minimax_nonterminal_eq fuel' b false dl depth hcw hdl
  simpa using h

theorem sign_iff_terminal (fuel : Nat) (b : Board) (is_maximizing : Bool)
    (depth : Nat) (r : WinResult) (hr : check_winner b = some r) (hd : depth ≤ 9) :
    ∃ s : Int, (minimax fuel b is_maximizing none depth).1 = XScore.fin s ∧
      (s < 0 ↔ XCanForceWin fuel b (!is_maximizing) = true) := by
  rw [xcfw_terminal fuel b (!is_maximizing) r hr]
  cases r with
  | mark m =>
    cases m with
    | O =>
      rw [minimax_eq_O_win fuel b is_maximizing none depth hr]
      refine ⟨10 - (depth : Int), rfl, ?_⟩
      simp only [decide_eq_true_eq, reduceCtorEq, WinResult.mark.injEq, iff_false]
      omega
    | X =>
      rw [minimax_eq_X_win fuel b is_maximizing none depth hr]
      refine ⟨(depth : Int) - 10, rfl, ?_⟩
      simp only [decide_eq_true_eq, WinResult.mark.injEq, iff_true]
      omega
  | Draw =>
    rw [minimax_eq_draw fuel b is_maximizing none depth hr]
    refine ⟨0, rfl, ?_⟩
    simp

theorem avail_set_countP_le (b : Board) (n : Nat) (mk : Mark)
    (h : b.countP (fun c => c.isNone) ≤ n + 1) :
    ∀ m ∈ available_moves b,
      (b.set m (some mk)).countP (fun c => c.isNone) ≤ n := by
  intro m hm
  have hcell := (mem_available_moves b m).mp hm
  have := countP_isNone_set mk b m hcell
  omega

theorem minimax_sign_iff (fuel : Nat) :
    ∀ (b : Board) (is_maximizing : Bool) (depth : Nat),
      b.countP (fun c => c.isNone) ≤ fuel → depth + fuel ≤ 9 →
      ∃ s : Int, (minimax fuel b is_maximizing none depth).1 = XScore.fin s ∧
        (s < 0 ↔ XCanForceWin fuel b (!is_maximizing) = true) := by
  induction fuel with
  | zero =>
    intro b isM depth hc hd
    obtain ⟨r, hr⟩ := check_winner_of_full b (Nat.le_zero.mp hc)
    exact sign_iff_terminal 0 b isM depth r hr (by omega)
  | succ n ih =>
    intro b isM depth hc hd
    cases hcw : check_winner b with
    | some r => exact sign_iff_terminal (n + 1) b isM depth r hcw (by omega)
    | none =>
      have hne := avail_nonempty_of_undecided b hcw
      cases isM with
      | true =>
        have hchild : ∀ m ∈ available_moves b, ∃ s : Int,
            (minimax n (b.set m (some Mark.O)) false none (depth + 1)).1 = XScore.fin s ∧
            (s < 0 ↔ XCanForceWin n (b.set m (some Mark.O)) true = true) := by
          intro m hm
          have h1 := avail_set_countP_le b n Mark.O hc m hm
          have h2 := ih (b.set m (some Mark.O)) false (depth + 1) h1 (by omega)
          simpa using h2
        rw [minimax_nonterminal_eq_max n b none depth hcw rfl]
        obtain ⟨hall, hinit, hcases⟩ := foldl_stepChoice_spec true
          ((available_moves b).map (fun m =>
            (m, (minimax n (b.set m (some Mark.O)) false none (depth + 1)).1)))
          XScore.negInf none
        rcases hcases with ⟨heq, hnone⟩ | ⟨i, p, hget, heq, hbeat, hfirst⟩
        · exfalso
          obtain ⟨m, hm⟩ := List.exists_mem_of_ne_nil (available_moves b) hne
          have hpm : ((m : Nat),
              (minimax n (b.set m (some Mark.O)) false none (depth + 1)).1) ∈
              (available_moves b).map (fun m =>
                (m, (minimax n (b.set m (some Mark.O)) false none (depth + 1)).1)) :=
            List.mem_map_of_mem _ hm
          have hnb := hnone _ hpm
          obtain ⟨s, hs, _⟩ := hchild m hm
          rw [hs] at hnb
          simp [beats, XScore.lt] at hnb
        · obtain ⟨mp, hmp, hpe⟩ := List.mem_map.mp (mem_of_getElem?_some hget)
          obtain ⟨sp, hsp, hiffp⟩ := hchild mp hmp
          have hp2 : p.2 = XScore.fin sp := by
            rw [← hpe]
            exact hsp
          refine ⟨sp, by rw [heq]; exact hp2, ?_⟩
          rw [show (!true) = false from rfl, xcfw_o_turn n b hcw]
          constructor
          · intro hneg
            rw [List.all_eq_true]
            intro m hmo
            have hm : m ∈ available_moves b := (mem_orderMoves _ m).mp hmo
            obtain ⟨sm, hsm, hiffm⟩ := hchild m hm
            have hpair : ((m : Nat),
                (minimax n (b.set m (some Mark.O)) false none (depth + 1)).1) ∈
                (available_moves b).map (fun m =>
                  (m, (minimax n (b.set m (some Mark.O)) false none (depth + 1)).1)) :=
              List.mem_map_of_mem _ hm
            have hb := hall _ hpair
            rw [heq] at hb
            simp only [hp2, hsm] at hb
            simp only [beats, if_true, XScore.lt, decide_eq_false_iff_not] at hb
            exact hiffm.mp (by omega)
          · intro hall2
            rw [List.all_eq_true] at hall2
            have := hall2 mp ((mem_orderMoves _ mp).mpr hmp)
            exact hiffp.mpr this
      | false =>
        have hchild : ∀ m ∈ available_moves b, ∃ s : Int,
            (minimax n (b.set m (some Mark.X)) true none (depth + 1)).1 = XScore.fin s ∧
            (s < 0 ↔ XCanForceWin n (b.set m (some Mark.X)) false = true) := by
          intro m hm
          have h1 := avail_set_countP_le b n Mark.X hc m hm
          have h2 := ih (b.set m (some Mark.X)) true (depth + 1) h1 (by omega)
          simpa using h2
        rw [minimax_nonterminal_eq_min n b none depth hcw rfl]
        obtain ⟨hall, hinit, hcases⟩ := foldl_stepChoice_spec false
          ((available_moves b).map (fun m =>
            (m, (minimax n (b.set m (some Mark.X)) true none (depth + 1)).1)))
          XScore.posInf none
        rcases hcases with ⟨heq, hnone⟩ | ⟨i, p, hget, heq, hbeat, hfirst⟩
        · exfalso
          obtain ⟨m, hm⟩ := List.exists_mem_of_ne_nil (available_moves b) hne
          have hpm : ((m : Nat),
              (minimax n (b.set m (some Mark.X)) true none (depth + 1)).1) ∈
              (available_moves b).map (fun m =>
                (m, (minimax n (b.set m (some Mark.X)) true none (depth + 1)).1)) :=
            List.mem_map_of_mem _ hm
          have hnb := hnone _ hpm
          obtain ⟨s, hs, _⟩ := hchild m hm
          rw [hs] at hnb
          simp [beats, XScore.lt] at hnb
        · obtain ⟨mp, hmp, hpe⟩ := List.mem_map.mp (mem_of_getElem?_some hget)
          obtain ⟨sp, hsp, hiffp⟩ := hchild mp hmp
          have hp2 : p.2 = XScore.fin sp := by
            rw [← hpe]
            exact hsp
          refine ⟨sp, by rw [heq]; exact hp2, ?_⟩
          rw [show (!false) = true from rfl, xcfw_x_turn n b hcw]
          constructor
          · intro hneg
            rw [List.any_eq_true]
            refine ⟨mp, hmp, hiffp.mp hneg⟩
          · intro hany
            rw [List.any_eq_true] at hany
            obtain ⟨m, hm, hx⟩ := hany
            obtain ⟨sm, hsm, hiffm⟩ := hchild m hm
            have hsm_neg : sm < 0 := hiffm.mpr hx
            have hpair : ((m : Nat),
                (minimax n (b.set m (some Mark.X)) true none (depth + 1)).1) ∈
                (available_moves b).map (fun m =>
                  (m, (minimax n (b.set m (some Mark.X)) true none (depth + 1)).1)) :=
              List.mem_map_of_mem _ hm
            have hb := hall _ hpair
            rw [heq] at hb
            simp only [hp2, hsm] at hb
            simp only [beats, Bool.false_eq_true, if_false, XScore.lt,
              decide_eq_false_iff_not] at hb
            omega

/-! ### The exhaustive opening analysis: `X` cannot force a win -/

set_option maxRecDepth 1000000 in
set_option maxHeartbeats 4000000 in
theorem xcfwL0 : XCanForceWin 8 (emptyBoard.set 0 (some Mark.X)) false = false := by
  decide

set_option maxRecDepth 1000000 in
set_option maxHeartbeats 4000000 in
theorem xcfwL1 : XCanForceWin 8 (emptyBoard.set 1 (some Mark.X)) false = false := by
  decide

set_option maxRecDepth 1000000 in
set_option maxHeartbeats 4000000 in
theorem xcfwL2 : XCanForceWin 8 (emptyBoard.set 2 (some Mark.X)) false = false := by
  decide

set_option maxRecDepth 1000000 in
set_option maxHeartbeats 4000000 in
theorem xcfwL3 : XCanForceWin 8 (emptyBoard.set 3 (some Mark.X)) false = false := by
  decide

set_option maxRecDepth 1000000 in
set_option maxHeartbeats 4000000 in
theorem xcfwL4 : XCanForceWin 8 (emptyBoard.set 4 (some Mark.X)) false = false := by
  decide

set_option maxRecDepth 1000000 in
set_option maxHeartbeats 4000000 in
theorem xcfwL5 : XCanForceWin 8 (emptyBoard.set 5 (some Mark.X)) false = false := by
  decide

set_option maxRecDepth 1000000 in
set_option maxHeartbeats 4000000 in
theorem xcfwL6 : XCanForceWin 8 (emptyBoard.set 6 (some Mark.X)) false = false := by
  decide

set_option maxRecDepth 1000000 in
set_option maxHeartbeats 4000000 in
theorem xcfwL7 : XCanForceWin 8 (emptyBoard.set 7 (some Mark.X)) false = false := by
  decide

set_option maxRecDepth 1000000 in
set_option maxHeartbeats 4000000 in
theorem xcfwL8 : XCanForceWin 8 (emptyBoard.set 8 (some Mark.X)) false = false := by
  decide

/-- From the empty board, with `X` to move, `X` cannot force a win. -/
theorem xcfw_empty_false : XCanForceWin 9 emptyBoard true = false := by
  have h9 : XCanForceWin 9 emptyBoard true =
      (available_moves emptyBoard).any
        (fun m => XCanForceWin 8 (emptyBoard.set m (some Mark.X)) false) :=
    xcfw_x_turn 8 emptyBoard (by decide)
  have hav : available_moves emptyBoard = [0, 1, 2, 3, 4, 5, 6, 7, 8] := by decide
  rw [h9, hav]
  simp only [List.any_cons, List.any_nil]
  rw [xcfwL0, xcfwL1, xcfwL2, xcfwL3, xcfwL4, xcfwL5, xcfwL6, xcfwL7, xcfwL8]
  rfl

/-! ### Games in which the computer follows the search -/

/-- The boards reachable in a game from the empty board in which the human
`X` (moving first, as after a reset) plays arbitrary legal moves and the
computer `O` always plays the move of the full-depth maximizing search
(`oReply`, Hard difficulty).  The flag is `true` when it is `X`'s turn. -/
inductive Reach : Board → Bool → Prop where
  | start : Reach emptyBoard true
  | xmove {b : Board} {m : Nat} : Reach b true → check_winner b = none →
      m ∈ available_moves b → Reach (b.set m (some Mark.X)) false
  | omove {b : Board} {m : Nat} : Reach b false → check_winner b = none →
      oReply b = some m → Reach (b.set m (some Mark.O)) true

theorem reach_length (b : Board) (t : Bool) (h : Reach b t) : b.length = 9 := by
  induction h with
  | start => rfl
  | xmove _ _ _ ih => rw [List.length_set]; exact ih
  | omove _ _ _ ih => rw [List.length_set]; exact ih

theorem reach_safe (b : Board) (t : Bool) (h : Reach b t) :
    XCanForceWin 9 b t = false := by
  induction h with
  | start => exact xcfw_empty_false
  | @xmove b2 m hr hcw hm ih =>
    have hcount : b2.countP (fun c => c.isNone) ≤ 9 := by
      have h1 := List.countP_le_length (fun c => c.isNone) (l := b2)
      rw [reach_length b2 true hr] at h1
      exact h1
    have h9 : XCanForceWin 9 b2 true =
        (available_moves b2).any
          (fun m => XCanForceWin 8 (b2.set m (some Mark.X)) false) :=
      xcfw_x_turn 8 b2 hcw
    rw [h9, List.any_eq_false] at ih
    have hchild8 : XCanForceWin 8 (b2.set m (some Mark.X)) false = false := by
      have := ih m hm
      simpa using this
    have hle : (b2.set m (some Mark.X)).countP (fun c => c.isNone) ≤ 8 := by
      have h2 := countP_isNone_set Mark.X b2 m ((mem_available_moves b2 m).mp hm)
      omega
    rw [← xcfw_fuel_succ 8 (b2.set m (some Mark.X)) false hle]
    exact hchild8
  | @omove b2 m hr hcw hrep ih =>
    have hcount : b2.countP (fun c => c.isNone) ≤ 9 := by
      have h1 := List.countP_le_length (fun c => c.isNone) (l := b2)
      rw [reach_length b2 false hr] at h1
      exact h1
    obtain ⟨s, hs, hiff⟩ := minimax_sign_iff 9 b2 true 0 hcount (by omega)
    have hiff2 : s < 0 ↔ XCanForceWin 9 b2 false = true := hiff
    have hsnn : ¬ s < 0 := by
      intro hneg
      rw [ih] at hiff2
      exact absurd (hiff2.mp hneg) (by simp)
    obtain ⟨i, m2, hget, hmv, hsc, hmax, hfirst⟩ :=
      minimaxTop_nonterminal_spec b2 true none hcw rfl
    have hm2 : m2 = m := by
      have : oReply b2 = some m2 := hmv
      rw [hrep] at this
      exact (Option.some.injEq _ _ ▸ this).symm
    subst hm2
    have hmem : m2 ∈ available_moves b2 := mem_of_getElem?_some hget
    have hchild_eq : childScore b2 true none m2 = XScore.fin s := by
      rw [← hsc]
      exact hs
    have hchildscore : (minimax 8 (b2.set m2 (some Mark.O)) false none 1).1 =
        XScore.fin s := hchild_eq
    have hle : (b2.set m2 (some Mark.O)).countP (fun c => c.isNone) ≤ 8 := by
      have h2 := countP_isNone_set Mark.O b2 m2 ((mem_available_moves b2 m2).mp hmem)
      omega
    obtain ⟨s2, hs2, hiffc⟩ :=
      minimax_sign_iff 8 (b2.set m2 (some Mark.O)) false 1 hle (by omega)
    have hs2s : s2 = s := by
      rw [hchildscore] at hs2
      exact (XScore.fin.injEq _ _ ▸ hs2).symm
    subst hs2s
    have hc8 : XCanForceWin 8 (b2.set m2 (some Mark.O)) true = false := by
      have hiffc2 : s2 < 0 ↔ XCanForceWin 8 (b2.set m2 (some Mark.O)) true = true :=
        hiffc
    -- s2 = s is not < 0
      cases hx : XCanForceWin 8 (b2.set m2 (some Mark.O)) true with
      | false => rfl
      | true => exact absurd (hiffc2.mpr hx) hsnn
    rw [← xcfw_fuel_succ 8 (b2.set m2 (some Mark.O)) true hle]
    exact hc8

/-- C7: in any game from the empty board in which the computer `O` always
plays the full-depth search's recommended move, no reachable position —
in particular no final position — is a win for the human mark `X`: played
to completion the outcome is a draw or a computer win, regardless of how
the opponent plays. -/
theorem minimax_play_never_loses (b : Board) (t : Bool) (h : Reach b t) :
    check_winner b ≠ some (WinResult.mark Mark.X) := by
  intro hx
  have hs := reach_safe b t h
  rw [xcfw_terminal 9 b t (WinResult.mark Mark.X) hx] at hs
  simp at hs

/-- Witness for `minimax_play_never_loses` at the initial position. -/
theorem minimax_play_never_loses_witness :
    check_winner emptyBoard ≠ some (WinResult.mark Mark.X) :=
  minimax_play_never_loses emptyBoard true Reach.start
